import Mathlib

/-!
Verification of the prompt acquisition subsystem of `cortex.t`
(`template/utils.py`): the text normalizer `preprocess_string`, the list
extractor `extract_python_list` / `convert_to_list`, the LLM list fetcher
`get_list`, and the replenishing queue `update_counters_and_get_new_list`.

Python strings are modelled as `List Char` / `String`; a Python function
that can raise an exception is modelled with `Option` / `Except` where
`none` / `.error` stands for the raised exception.  Python `asyncio`
concurrency is single-threaded cooperative scheduling and the queue body
runs entirely inside the one global `list_update_lock`, so each queue call
is modelled as one atomic state transition; `asyncio.gather` is modelled
by reassembling completion events by task index.
-/

namespace Cortex

/-- The apostrophe character `'` (written via its code point). -/
def aposC : Char := Char.ofNat 39

/-- The backslash character (written via its code point). -/
def backslashC : Char := Char.ofNat 92

/-- Python's `\s` class: the six ASCII whitespace characters. -/
def isPySpace (c : Char) : Bool :=
  c = ' ' || c = '\t' || c = '\n' || c = '\r' || c = Char.ofNat 11 || c = Char.ofNat 12

/-- Python's `\w` class, restricted to ASCII: letters, digits, underscore. -/
def isWordChar (c : Char) : Bool := c.isAlphanum || c = '_'

/-- The sentinel used by `preprocess_string` to protect apostrophes. -/
def placeholder : List Char := "___SINGLE_QUOTE___".data

/-- `re.sub(r"(?<=\w)'(?=\w)", placeholder, text)`: replace every apostrophe
whose (original) neighbours are both word characters by the sentinel.
`prev` is the previous character of the original text. -/
def protectApos : Option Char → List Char → List Char
  | _, [] => []
  | prev, c :: rest =>
    if c = aposC
        && (match prev with | some p => isWordChar p | none => false)
        && (match rest.head? with | some n => isWordChar n | none => false) then
      placeholder ++ protectApos (some c) rest
    else
      c :: protectApos (some c) rest

/-- Is `pat` a prefix of `l`? -/
def isPre : List Char → List Char → Bool
  | [], _ => true
  | _ :: _, [] => false
  | p :: ps, c :: cs => p = c && isPre ps cs

/-- One fuel-indexed step of Python `str.replace` (left-to-right,
non-overlapping).  Fuel `l.length` is always sufficient because every step
consumes at least one input character. -/
def replaceFuel (pat repl : List Char) : Nat → List Char → List Char
  | _, [] => []
  | 0, l => l
  | f + 1, c :: rest =>
    if isPre pat (c :: rest) then
      repl ++ replaceFuel pat repl f (List.drop (pat.length - 1) rest)
    else
      c :: replaceFuel pat repl f rest

/-- Python `str.replace(pat, repl)` (all occurrences, left to right). -/
def pyReplace (l pat repl : List Char) : List Char := replaceFuel pat repl l.length l

/-- The comment-stripping scan of `preprocess_string`: `#` starts a comment
that ends at (and keeps) the next `"` character. -/
def removeComments : Bool → List Char → List Char
  | _, [] => []
  | inC, c :: rest =>
    if c = '#' then removeComments true rest
    else if c = '"' && inC then c :: removeComments false rest
    else if inC then removeComments true rest
    else c :: removeComments false rest

/-- Backward scan of `preprocess_string` (lines 244-250): walking left over
spaces and newlines, is the first other character a `[` or `,`? -/
def backScan : List Char → Bool
  | [] => false
  | c :: rest =>
    if c = '[' || c = ',' then true
    else if c = ' ' || c = '\n' then backScan rest
    else false

/-- Forward scan of `preprocess_string` (lines 252-254): the first character
after the current index that is not a space or newline, if any. -/
def fwdScan : List Char → Option Char
  | [] => none
  | c :: rest => if c = ' ' || c = '\n' then fwdScan rest else some c

/-- The main quote/space scan of `preprocess_string` (lines 224-274).
`prevRev` is the reversed prefix of the *original* scanned text before the
current index (the Python code indexes `no_comments_text`, not the output).
Returns `none` when the Python code would raise `IndexError`: the space
branch evaluates `no_comments_text[i + 1]` without a bounds check. -/
def mainScan : List Char → Bool → Bool → List Char → Option (List Char)
  | _, _, _, [] => some []
  | prevRev, insideQ, foundB, c :: rem =>
    if !foundB then
      (mainScan (c :: prevRev) insideQ (c = '[') rem).map (c :: ·)
    else if c = '"' then
      let structural := backScan prevRev ||
        (match fwdScan rem with | some n => n = ']' || n = ',' | none => false)
      if structural then
        (mainScan (c :: prevRev) (!insideQ) foundB rem).map (c :: ·)
      else
        mainScan (c :: prevRev) insideQ foundB rem
    else if c = ' ' then
      if !insideQ then
        match prevRev with
        | [] => mainScan (c :: prevRev) insideQ foundB rem
        | p :: _ =>
          if p = ' ' || p = ',' || p = '[' then
            mainScan (c :: prevRev) insideQ foundB rem
          else
            match rem with
            | [] => none
            | n :: _ =>
              if n = ' ' || n = ',' || n = ']' then
                mainScan (c :: prevRev) insideQ foundB rem
              else
                (mainScan (c :: prevRev) insideQ foundB rem).map (c :: ·)
      else
        (mainScan (c :: prevRev) insideQ foundB rem).map (c :: ·)
    else
      (mainScan (c :: prevRev) insideQ foundB rem).map (c :: ·)

/-- `re.sub(r"\[\s+", "[", s)`: drop whitespace runs directly after `[`.
`skipping` is true while consuming such a run. -/
def subLB : Bool → List Char → List Char
  | _, [] => []
  | skipping, c :: rest =>
    if skipping && isPySpace c then subLB true rest
    else if c = '[' then '[' :: subLB true rest
    else c :: subLB false rest

/-- `re.sub(r"\s+\]", "]", s)`: drop whitespace runs directly before `]`.
`pending` holds whitespace not yet known to precede a `]`. -/
def subRB : List Char → List Char → List Char
  | pending, [] => pending
  | pending, c :: rest =>
    if isPySpace c then subRB (pending ++ [c]) rest
    else if c = ']' then ']' :: subRB [] rest
    else pending ++ c :: subRB [] rest

/-- `re.sub(r"\s*,\s*", ", ", s)`: normalize separators around commas.
`pending` holds whitespace that may precede a comma; `skipping` is true
while consuming the whitespace after a replaced comma. -/
def subComma : List Char → Bool → List Char → List Char
  | pending, _, [] => pending
  | pending, skipping, c :: rest =>
    if skipping then
      if isPySpace c then subComma [] true rest
      else if c = ',' then ',' :: ' ' :: subComma [] true rest
      else c :: subComma [] false rest
    else
      if isPySpace c then subComma (pending ++ [c]) false rest
      else if c = ',' then ',' :: ' ' :: subComma [] true rest
      else pending ++ c :: subComma [] false rest

/-- Index of the first character satisfying `p`, as in Python `str.find`. -/
def firstIdx (p : Char → Bool) : List Char → Option Nat
  | [] => none
  | c :: rest => if p c then some 0 else (firstIdx p rest).map (· + 1)

/-- Lines 281-283 of `preprocess_string`: truncate to the span from the
first `[` to the last `]` when both exist and the `]` comes later. -/
def truncateBrackets (l : List Char) : List Char :=
  match firstIdx (· = '[') l, firstIdx (· = ']') l.reverse with
  | some s, some k =>
    let e := l.length - 1 - k
    if s < e then (l.drop s).take (e + 1 - s) else l
  | _, _ => l

/-- `preprocess_string` on character lists: tab removal, apostrophe
protection, quote conversion, comment stripping, the quote/space scan,
the three cosmetic regex substitutions, and bracket truncation.
`none` models the `IndexError` the scan can raise. -/
def listPreprocess (l0 : List Char) : Option (List Char) :=
  let l1 := l0.filter (fun c => c ≠ '\t')
  let l2 := protectApos none l1
  let l3 := pyReplace l2 [aposC] ['"']
  let l4 := pyReplace l3 placeholder [aposC]
  let l5 := removeComments false l4
  match mainScan [] false false l5 with
  | none => none
  | some l6 =>
    let l7 := subLB false l6
    let l8 := subRB [] l7
    let l9 := subComma [] false l8
    some (truncateBrackets l9)

/-- `preprocess_string(text)` (utils.py lines 201-285).  `none` models a
raised `IndexError`. -/
def preprocess_string (s : String) : Option String :=
  (listPreprocess s.data).map String.mk

/-- `re.match(r'\d+\.\s', text)`: does the text start with digits, a
period and one whitespace character? -/
def matchesNumbered (l : List Char) : Bool :=
  let ds := l.takeWhile Char.isDigit
  !ds.isEmpty &&
    (match l.drop ds.length with
     | c :: n :: _ => c = '.' && isPySpace n
     | _ => false)

/-- Drop one leading `\d+\.\s` match. -/
def dropNumbered (l : List Char) : List Char :=
  l.drop ((l.takeWhile Char.isDigit).length + 2)

/-- `re.split(r'\d+\.\s', text)`: split on every match of the numbered
pattern.  `acc` is the current segment, reversed.  Fuel `length + 1` is
always sufficient: every step consumes at least one character. -/
def pySplitNum : Nat → List Char → List Char → List (List Char)
  | 0, acc, rest => [acc.reverse ++ rest]
  | _ + 1, acc, [] => [acc.reverse]
  | f + 1, acc, c :: rest =>
    if matchesNumbered (c :: rest) then
      acc.reverse :: pySplitNum f [] (dropNumbered (c :: rest))
    else
      pySplitNum f (c :: acc) rest

/-- Python `str.strip()`: remove leading and trailing whitespace. -/
def pyStrip (l : List Char) : List Char :=
  ((l.dropWhile isPySpace).reverse.dropWhile isPySpace).reverse

/-- `convert_to_list(text)` (utils.py lines 288-291):
`[item.strip() for item in re.split(pattern, text) if item]` — note the
non-emptiness filter applies *before* stripping. -/
def convert_to_list (s : String) : List String :=
  ((pySplitNum (s.data.length + 1) [] s.data).filter (fun seg => !seg.isEmpty)).map
    (fun seg => String.mk (pyStrip seg))

/-- Python escape decoding for one escaped character inside a string
literal; unrecognized escapes keep the backslash (as in Python). -/
def escChars (c : Char) : List Char :=
  if c = backslashC then [backslashC]
  else if c = aposC then [aposC]
  else if c = '"' then ['"']
  else if c = 'n' then ['\n']
  else if c = 't' then ['\t']
  else if c = 'r' then ['\r']
  else [backslashC, c]

/-- Body of a double-quoted Python string literal, after the opening quote:
returns the decoded characters and the remaining input after the closing
quote, or `none` for a malformed literal. -/
def parseStrBody : List Char → Option (List Char × List Char)
  | [] => none
  | [c] => if c = '"' then some ([], []) else none
  | c :: e :: rest =>
    if c = '"' then some ([], e :: rest)
    else if c = backslashC then
      (parseStrBody rest).map (fun p => (escChars e ++ p.1, p.2))
    else
      (parseStrBody (e :: rest)).map (fun p => (c :: p.1, p.2))

/-- Skip Python whitespace. -/
def skipWs (l : List Char) : List Char := l.dropWhile isPySpace

/-- After one parsed element: `, element`* with optional trailing comma,
closed by `]`. -/
def parseListLoop : Nat → List Char → Option (List String × List Char)
  | 0, _ => none
  | f + 1, l =>
    match skipWs l with
    | ']' :: r => some ([], r)
    | ',' :: r =>
      match skipWs r with
      | ']' :: r2 => some ([], r2)
      | '"' :: r2 =>
        match parseStrBody r2 with
        | none => none
        | some (s, r3) =>
          match parseListLoop f r3 with
          | none => none
          | some (ss, r4) => some (String.mk s :: ss, r4)
      | _ => none
    | _ => none

/-- Model of `ast.literal_eval` on the argument `'[' + list_str + ']'`,
restricted to the shape the pipeline produces and consumes: a Python list
literal of double-quoted string literals.  Any other input (including list
literals of non-string values) is treated as the evaluation failure branch
of `extract_python_list`, i.e. `none`. -/
def pyLiteralEvalStrList (l : List Char) : Option (List String) :=
  match skipWs l with
  | '[' :: r =>
    match skipWs r with
    | ']' :: r2 => if (skipWs r2).isEmpty then some [] else none
    | '"' :: r2 =>
      match parseStrBody r2 with
      | none => none
      | some (s, r3) =>
        match parseListLoop (r3.length + 1) r3 with
        | none => none
        | some (ss, r4) => if (skipWs r4).isEmpty then some (String.mk s :: ss) else none
    | _ => none
  | _ => none

/-- The quoted-string atom `"(\\.|[^"\\])*"` of the bracket regex, after
its opening quote: returns the consumed characters (closing quote
included) and the rest. -/
def parseQuotedRe : List Char → Option (List Char × List Char)
  | [] => none
  | [c] => if c = '"' then some (['"'], []) else none
  | c :: e :: rest =>
    if c = '"' then some (['"'], e :: rest)
    else if c = backslashC then
      (parseQuotedRe rest).map (fun p => (c :: e :: p.1, p.2))
    else
      (parseQuotedRe (e :: rest)).map (fun p => (c :: p.1, p.2))

/-- Matcher for `((?:[^][]|"(?:\\.|[^"\\])*")*)\]` after an opening `[`,
with the regex engine's backtracking order: the single-character
alternative `[^][]` is tried first, the quoted-string alternative second,
and the closing `]` when the star can no longer extend.  Returns the
captured group and the rest after the `]`. -/
def matchInner : Nat → List Char → Option (List Char × List Char)
  | 0, _ => none
  | _ + 1, [] => none
  | f + 1, c :: rest =>
    if c = ']' then some ([], rest)
    else if c = '[' then none
    else
      match matchInner f rest with
      | some (g, r) => some (c :: g, r)
      | none =>
        if c = '"' then
          match parseQuotedRe rest with
          | some (q, rest2) =>
            match matchInner f rest2 with
            | some (g, r) => some (c :: q ++ g, r)
            | none => none
          | none => none
        else none

/-- `re.search(r'\[((?:[^][]|"(?:\\.|[^"\\])*")*)\]', text)`: leftmost
match; every match starts at a `[`. -/
def searchBracket : List Char → Option (List Char)
  | [] => none
  | c :: rest =>
    if c = '[' then
      match matchInner (rest.length + 1) rest with
      | some (g, _) => some g
      | none => searchBracket rest
    else searchBracket rest

/-- `extract_python_list(text)` (utils.py lines 294-316).  The Python
`try`/`except` absorbs every internal exception into the `None` return, so
the model is total; `none` is the absent result. -/
def extract_python_list (s : String) : Option (List String) :=
  if matchesNumbered s.data then some (convert_to_list s)
  else
    match preprocess_string s with
    | none => none
    | some t =>
      match searchBracket t.data with
      | none => none
      | some g => pyLiteralEvalStrList ('[' :: (g ++ [']']))

/-! ## The LLM List Fetcher (`get_list`, utils.py lines 69-148)

The provider call `call_openai` is modelled as an oracle returning
`Option String` (`none` is the `None` that `call_openai` returns after its
transient retries are exhausted).  The initial concurrent batch issued via
`asyncio.gather` is the `responses` list (one entry per selected prompt,
in submission order); the per-prompt escalated retries (lines 126-139) are
an oracle from retry number to reply. -/

/-- Line 120/131: `answer.replace("\n", " ") if answer else ""`. -/
def flattenAnswer : Option String → String
  | none => ""
  | some s => if s = "" then "" else String.mk (s.data.map (fun c => if c = '\n' then ' ' else c))

/-- The escalated retry loop for one prompt (lines 126-139): up to `n`
more attempts, stopping at the first reply whose extraction is truthy
(a non-empty list); returns the items it contributed. -/
def retryLoop (oracle : Nat → Option String) : Nat → Nat → List String
  | _, 0 => []
  | r, n + 1 =>
    match extract_python_list (flattenAnswer (oracle r)) with
    | some (x :: xs) => x :: xs
    | _ => retryLoop oracle (r + 1) n

/-- Processing of one gathered reply (lines 118-142): if the extracted
list is truthy (Python: non-`None` *and* non-empty) its elements are
appended, otherwise the retry loop runs with `max_retries = 5`. -/
def processOne (oracle : Nat → Option String) (ans : Option String) : List String :=
  match extract_python_list (flattenAnswer ans) with
  | some (x :: xs) => x :: xs
  | _ => retryLoop oracle 0 5

/-- The accumulation loop of `get_list`: `extracted_lists += ...` over the
gathered responses in submission order (`for i, answer in enumerate`). -/
def getListAccum (oracle : Nat → Nat → Option String) : Nat → List String → List (Option String) → List String
  | _, acc, [] => acc
  | i, acc, r :: rest => getListAccum oracle (i + 1) (acc ++ processOne (oracle i) r) rest

/-- `get_list` (lines 116-148): `None` when nothing was collected,
otherwise the accumulated concatenation. -/
def get_list (responses : List (Option String)) (oracle : Nat → Nat → Option String) :
    Option (List String) :=
  let e := getListAccum oracle 0 [] responses
  if e = [] then none else some e

/-- The items instruction `i` contributes (original reply plus retries). -/
def contribution (oracle : Nat → Nat → Option String) (p : Nat × Option String) : List String :=
  processOne (oracle p.1) p.2

/-- All contributions, concatenated in instruction order. -/
def contributions (responses : List (Option String)) (oracle : Nat → Nat → Option String) :
    List String :=
  (responses.enum).flatMap (contribution oracle)

/-- `asyncio.gather(*tasks)`: `completions` lists the finished provider
calls in *completion* order as (task index, reply) pairs; `gather` hands
back the reply of task `i` at position `i`, i.e. submission order. -/
def gatherByIndex (completions : List (Nat × Option String)) (n : Nat) : List (Option String) :=
  (List.range n).map fun i =>
    match completions.find? (fun p => p.1 == i) with
    | some p => p.2
    | none => none

/-! ## The Replenishing Queue (`update_counters_and_get_new_list`,
utils.py lines 151-198)

Python lists are mutable heap objects and `get_items` hands out the
*default pool constants themselves* for theme requests, so the model keeps
an explicit heap: addresses are indices into `World.heap`, the two default
pools live at addresses 0 (`template.INSTRUCT_DEFAULT_THEMES`) and 1
(`template.IMAGE_THEMES`), and each queue cell of `state` holds either
`none` (the JSON `null` of the initial state) or the address of a list.
The whole body of `update_counters_and_get_new_list` runs inside the one
global `list_update_lock`, so a call is one atomic transition; exceptions
are modelled by `Except.error` alongside the (still mutated) world. -/

/-- Exceptions this subsystem can raise. -/
inductive PyErr where
  | indexError
  | typeError
  deriving DecidableEq, Repr

/-- The two prompt categories. -/
inductive Cat where
  | text
  | images
  deriving DecidableEq, Repr

/-- The two item kinds. -/
inductive Kind where
  | themes
  | questions
  deriving DecidableEq, Repr

/-- The process-wide mutable world: the heap of Python list objects and
the four queue cells of `state` (each `None` or an address).  The
`counter` fields of the persisted state are never touched by this code
path and are omitted. -/
structure World where
  heap : List (List String)
  tThemes : Option Nat
  tQuestions : Option Nat
  iThemes : Option Nat
  iQuestions : Option Nat
  deriving DecidableEq, Repr

/-- Read a heap cell (addresses are always in range along reachable
executions; out-of-range reads default to `[]`). -/
def heapGet (w : World) (a : Nat) : List String := w.heap.getD a []

/-- Overwrite a heap cell in place. -/
def heapSet (w : World) (a : Nat) (v : List String) : World :=
  { w with heap := w.heap.set a v }

/-- `state[category][item_type]`. -/
def cellGet (w : World) : Cat → Kind → Option Nat
  | .text, .themes => w.tThemes
  | .text, .questions => w.tQuestions
  | .images, .themes => w.iThemes
  | .images, .questions => w.iQuestions

/-- `state[category][item_type] = v`. -/
def setCell (w : World) : Cat → Kind → Option Nat → World
  | .text, .themes, v => { w with tThemes := v }
  | .text, .questions, v => { w with tQuestions := v }
  | .images, .themes, v => { w with iThemes := v }
  | .images, .questions, v => { w with iQuestions := v }

/-- Heap address of the per-category default theme pool constant. -/
def defaultAddr : Cat → Nat
  | .text => 0
  | .images => 1

/-- Modelled from the spec: `template/__init__.py` (not under `src/`)
supplies the constant default pools `INSTRUCT_DEFAULT_THEMES` and
`IMAGE_THEMES` as "static, per-category constant ordered sequences of
string"; their contents are parameters here.  The initial world allocates
them at addresses 0 and 1 and starts all four queue cells at `None`, the
initial state of `load_state_from_file`. -/
def initWorld (instructThemes imageThemes : List String) : World :=
  { heap := [instructThemes, imageThemes],
    tThemes := none, tQuestions := none, iThemes := none, iQuestions := none }

/-- `random.choice(l)` with the random draw supplied as `pick`: raises
`IndexError` on an empty sequence, otherwise returns an element. -/
def random_choice (pick : Nat) (l : List String) : Except PyErr String :=
  match l with
  | [] => .error .indexError
  | x :: xs => .ok ((x :: xs).getD (pick % (x :: xs).length) x)

/-- `get_random_theme(category)` (lines 165-170): read the themes cell;
if falsy (absent or an empty list), cache the default pool *by reference*
and choose from it; `random.choice` may raise. -/
def get_random_theme (w : World) (c : Cat) (pick : Nat) : World × Except PyErr String :=
  match cellGet w c .themes with
  | some a =>
    if heapGet w a = [] then
      let w1 := setCell w c .themes (some (defaultAddr c))
      (w1, random_choice pick (heapGet w1 (defaultAddr c)))
    else
      (w, random_choice pick (heapGet w a))
  | none =>
    let w1 := setCell w c .themes (some (defaultAddr c))
    (w1, random_choice pick (heapGet w1 (defaultAddr c)))

/-- Lines 186-189: `item = items.pop() if items else None`, then clear the
cell to `None` when the remaining list is empty. -/
def popStep (w : World) (c : Cat) (k : Kind) (a : Nat) : World × Except PyErr (Option String) :=
  let l := heapGet w a
  match l.getLast? with
  | none => (setCell w c k none, .ok none)
  | some x =>
    let w1 := heapSet w a l.dropLast
    let w2 := if l.dropLast = [] then setCell w1 c k none else w1
    (w2, .ok (some x))

/-- The refill branch (lines 181-184) followed by the pop.  For themes,
`get_items` returns the default pool constant itself (lines 154-157) — no
copy.  For questions, `get_items` (lines 158-163) loops
`while True: theme = await get_random_theme(...)`; since `random.choice`
either raises or returns a pool element, `theme is not None` always holds
and the body runs exactly once, returning `get_list`'s result — which may
be `None`, in which case `state[...] = None` is stored and the debug call
`len(items)` on line 184 raises `TypeError`.  A fetched list is a fresh
object, modelled by allocating at the end of the heap. -/
def refillCell (w : World) (c : Cat) (k : Kind) (pick : Nat)
    (fetch : String → Option (List String)) : World × Except PyErr (Option String) :=
  match k with
  | .themes =>
    let a := defaultAddr c
    let w1 := setCell w c .themes (some a)
    popStep w1 c .themes a
  | .questions =>
    match get_random_theme w c pick with
    | (w1, .error e) => (w1, .error e)
    | (w1, .ok theme) =>
      match fetch theme with
      | none => (setCell w1 c .questions none, .error .typeError)
      | some l =>
        let a := w1.heap.length
        let w2 := { w1 with heap := w1.heap ++ [l] }
        let w3 := setCell w2 c .questions (some a)
        popStep w3 c .questions a

/-- `update_counters_and_get_new_list` (lines 151-190): one atomic call
under `list_update_lock`.  `pick` supplies the random theme draw and
`fetch` the outcome of `get_list` for the drawn theme. -/
def update_counters_and_get_new_list (w : World) (c : Cat) (k : Kind) (pick : Nat)
    (fetch : String → Option (List String)) : World × Except PyErr (Option String) :=
  match cellGet w c k with
  | some a =>
    if heapGet w a = [] then refillCell w c k pick fetch
    else popStep w c k a
  | none => refillCell w c k pick fetch

/-- `get_question(category, n)` (lines 193-198): delegates to the queue
with `item_type = "questions"` (the category validation cannot fail for a
value of `Cat`). -/
def get_question (w : World) (c : Cat) (pick : Nat)
    (fetch : String → Option (List String)) : World × Except PyErr (Option String) :=
  update_counters_and_get_new_list w c .questions pick fetch

/-- `n` successive `take_one` calls (each one atomic under the global
lock, so any concurrent schedule of `n` callers executes as some such
sequence). -/
def takeMany (c : Cat) (k : Kind) (pick : Nat) (fetch : String → Option (List String)) :
    Nat → World → List (Except PyErr (Option String)) × World
  | 0, w => ([], w)
  | n + 1, w =>
    let s := update_counters_and_get_new_list w c k pick fetch
    let t := takeMany c k pick fetch n s.1
    (s.2 :: t.1, t.2)

/-- One queue cell satisfies the data-model invariant: absent, or a
non-empty cached list. -/
def cellOk (w : World) : Option Nat → Prop
  | none => True
  | some a => heapGet w a ≠ []

instance cellOkDec (w : World) : (o : Option Nat) → Decidable (cellOk w o)
  | none => .isTrue trivial
  | some a => inferInstanceAs (Decidable (heapGet w a ≠ []))

/-- The QueueState invariant of spec §3: no cell holds an empty sequence
(emptiness is represented as the absent value). -/
def Inv (w : World) : Prop :=
  cellOk w w.tThemes ∧ cellOk w w.tQuestions ∧ cellOk w w.iThemes ∧ cellOk w w.iQuestions

/-- A themes cell only ever aliases its category's default pool. -/
def themeAddrOk : Cat → Option Nat → Prop
  | _, none => True
  | c, some a => a = defaultAddr c

instance themeAddrOkDec (c : Cat) : (o : Option Nat) → Decidable (themeAddrOk c o)
  | none => .isTrue trivial
  | some a => inferInstanceAs (Decidable (a = defaultAddr c))

/-- A questions cell holds a fresh (non-default) in-range address. -/
def qAddrOk (w : World) : Option Nat → Prop
  | none => True
  | some a => 2 ≤ a ∧ a < w.heap.length

instance qAddrOkDec (w : World) : (o : Option Nat) → Decidable (qAddrOk w o)
  | none => .isTrue trivial
  | some a => inferInstanceAs (Decidable (2 ≤ a ∧ a < w.heap.length))

/-- The two questions cells never alias each other. -/
def qDistinct : Option Nat → Option Nat → Prop
  | some a, some b => a ≠ b
  | _, _ => True

instance qDistinctDec : (o o' : Option Nat) → Decidable (qDistinct o o')
  | some a, some b => inferInstanceAs (Decidable (a ≠ b))
  | some _, none => .isTrue trivial
  | none, some _ => .isTrue trivial
  | none, none => .isTrue trivial

/-- Structural well-formedness of reachable worlds: the two default pools
exist, theme cells only alias their own category's default pool, and
questions cells hold fresh, in-range, pairwise distinct addresses (a
`get_list` result is always a freshly allocated object). -/
def Wf (w : World) : Prop :=
  2 ≤ w.heap.length ∧ themeAddrOk Cat.text w.tThemes ∧ themeAddrOk Cat.images w.iThemes ∧
  qAddrOk w w.tQuestions ∧ qAddrOk w w.iQuestions ∧ qDistinct w.tQuestions w.iQuestions

instance invDec (w : World) : Decidable (Inv w) :=
  inferInstanceAs (Decidable (cellOk w w.tThemes ∧ cellOk w w.tQuestions ∧
    cellOk w w.iThemes ∧ cellOk w w.iQuestions))

instance wfDec (w : World) : Decidable (Wf w) :=
  inferInstanceAs (Decidable (2 ≤ w.heap.length ∧ themeAddrOk Cat.text w.tThemes ∧
    themeAddrOk Cat.images w.iThemes ∧ qAddrOk w w.tQuestions ∧ qAddrOk w w.iQuestions ∧
    qDistinct w.tQuestions w.iQuestions))

/-! ## Helper lemmas -/

theorem getListAccum_eq (oracle : Nat → Nat → Option String) :
    ∀ (rs : List (Option String)) (i : Nat) (acc : List String),
      getListAccum oracle i acc rs = acc ++ (List.enumFrom i rs).flatMap (contribution oracle) := by
  intro rs
  induction rs with
  | nil => intro i acc; simp [getListAccum]
  | cons r rest ih =>
    intro i acc
    simp only [getListAccum, List.enumFrom_cons, List.flatMap_cons, ih, List.append_assoc]
    rfl

theorem find?_eq_filter_head? (p : α → Bool) : ∀ l : List α, l.find? p = (l.filter p).head? := by
  intro l
  induction l with
  | nil => rfl
  | cons a rest ih =>
    cases hp : p a
    · rw [List.find?_cons, List.filter_cons, hp]
      exact ih
    · rw [List.find?_cons, List.filter_cons, hp]
      rfl

theorem filter_key_len_le_one (i : Nat) :
    ∀ l : List (Nat × Option String), (l.map Prod.fst).Nodup →
      (l.filter (fun p => p.1 == i)).length ≤ 1 := by
  intro l
  induction l with
  | nil => simp
  | cons a rest ih =>
    intro hnd
    simp only [List.map_cons, List.nodup_cons] at hnd
    rw [List.filter_cons]
    by_cases h : a.1 = i
    · have hrest : rest.filter (fun p => p.1 == i) = [] := by
        rw [List.filter_eq_nil_iff]
        intro b hb hbi
        have hbi' : b.1 = i := by simpa using hbi
        exact hnd.1 (by rw [h, ← hbi']; exact List.mem_map_of_mem Prod.fst hb)
      simp [h, hrest]
    · have h' : (a.1 == i) = false := by simpa using h
      simp only [h', if_neg, Bool.false_eq_true, not_false_eq_true]
      exact ih hnd.2

theorem find?_key_perm {l₁ l₂ : List (Nat × Option String)} (hperm : l₁.Perm l₂)
    (hnd : (l₁.map Prod.fst).Nodup) (i : Nat) :
    l₁.find? (fun p => p.1 == i) = l₂.find? (fun p => p.1 == i) := by
  have hnd₂ : (l₂.map Prod.fst).Nodup := ((hperm.map Prod.fst).nodup_iff).mp hnd
  rw [find?_eq_filter_head?, find?_eq_filter_head?]
  have hp := hperm.filter (fun p => p.1 == i)
  have h1 := filter_key_len_le_one i l₁ hnd
  have h2 := filter_key_len_le_one i l₂ hnd₂
  match hf1 : l₁.filter (fun p => p.1 == i), hf2 : l₂.filter (fun p => p.1 == i) with
  | [], [] => rw [hf1, hf2]
  | [], b :: bs => rw [hf1, hf2] at hp; exact absurd hp.length_eq (by simp)
  | a :: as, [] => rw [hf1, hf2] at hp; exact absurd hp.length_eq (by simp)
  | [a], [b] =>
    rw [hf1, hf2] at hp
    obtain rfl : a = b := by simpa [List.perm_singleton] using hp
    rw [hf1, hf2]
  | a :: a' :: as, _ => rw [hf1] at h1; exact absurd h1 (by simp)
  | [a], b :: b' :: bs => rw [hf2] at h2; exact absurd h2 (by simp)

theorem protectApos_noLB : ∀ (l : List Char) (prev : Option Char), '[' ∉ l →
    '[' ∉ protectApos prev l := by
  intro l
  induction l with
  | nil => intro prev _; simp [protectApos]
  | cons c rest ih =>
    intro prev h
    simp only [List.mem_cons, not_or] at h
    simp only [protectApos]
    split
    · intro hm
      rcases List.mem_append.mp hm with hp | hr
      · revert hp; decide
      · exact ih (some c) h.2 hr
    · intro hm
      rcases List.mem_cons.mp hm with heq | hr
      · exact h.1 heq
      · exact ih (some c) h.2 hr

theorem replaceFuel_noLB (pat repl : List Char) (hrepl : '[' ∉ repl) :
    ∀ (f : Nat) (l : List Char), '[' ∉ l → '[' ∉ replaceFuel pat repl f l := by
  intro f
  induction f with
  | zero =>
    intro l h
    cases l with
    | nil => simp [replaceFuel]
    | cons c rest => simpa [replaceFuel] using h
  | succ f ih =>
    intro l h
    cases l with
    | nil => simp [replaceFuel]
    | cons c rest =>
      simp only [List.mem_cons, not_or] at h
      simp only [replaceFuel]
      split
      · intro hm
        rcases List.mem_append.mp hm with hp | hr
        · exact hrepl hp
        · exact ih _ (fun hm2 => h.2 (List.drop_subset _ _ hm2)) hr
      · intro hm
        rcases List.mem_cons.mp hm with heq | hr
        · exact h.1 heq
        · exact ih rest h.2 hr

theorem removeComments_noLB : ∀ (l : List Char) (b : Bool), '[' ∉ l →
    '[' ∉ removeComments b l := by
  intro l
  induction l with
  | nil => intro b _; simp [removeComments]
  | cons c rest ih =>
    intro b h
    simp only [List.mem_cons, not_or] at h
    simp only [removeComments]
    split
    · exact ih true h.2
    · split
      · intro hm
        rcases List.mem_cons.mp hm with heq | hr
        · exact h.1 heq
        · exact ih false h.2 hr
      · split
        · exact ih true h.2
        · intro hm
          rcases List.mem_cons.mp hm with heq | hr
          · exact h.1 heq
          · exact ih false h.2 hr

theorem mainScan_id_noLB : ∀ (l prevRev : List Char) (q : Bool), '[' ∉ l →
    mainScan prevRev q false l = some l := by
  intro l
  induction l with
  | nil => intro prevRev q _; rfl
  | cons c rem ih =>
    intro prevRev q h
    simp only [List.mem_cons, not_or] at h
    have hc : (decide (c = '[')) = false := decide_eq_false (fun heq => h.1 heq.symm)
    simp only [mainScan, Bool.not_false, if_pos, hc]
    rw [ih (c :: prevRev) q h.2]
    rfl

theorem subLB_noLB : ∀ (l : List Char) (b : Bool), '[' ∉ l → '[' ∉ subLB b l := by
  intro l
  induction l with
  | nil => intro b _; simp [subLB]
  | cons c rest ih =>
    intro b h
    simp only [List.mem_cons, not_or] at h
    simp only [subLB]
    split
    · exact ih true h.2
    · split
      · exact absurd (by assumption : c = '[') (fun heq => h.1 heq.symm)
      · intro hm
        rcases List.mem_cons.mp hm with heq | hr
        · exact h.1 heq
        · exact ih false h.2 hr

theorem subRB_noLB : ∀ (l pending : List Char), '[' ∉ pending → '[' ∉ l →
    '[' ∉ subRB pending l := by
  intro l
  induction l with
  | nil => intro pending hp _; simpa [subRB] using hp
  | cons c rest ih =>
    intro pending hp h
    simp only [List.mem_cons, not_or] at h
    simp only [subRB]
    split
    · refine ih (pending ++ [c]) ?_ h.2
      intro hm
      rcases List.mem_append.mp hm with h1 | h2
      · exact hp h1
      · exact h.1 (List.mem_singleton.mp h2)
    · split
      · intro hm
        rcases List.mem_cons.mp hm with heq | hr
        · exact absurd heq.symm (by decide)
        · exact ih [] (by simp) h.2 hr
      · intro hm
        rcases List.mem_append.mp hm with h1 | h2
        · exact hp h1
        · rcases List.mem_cons.mp h2 with heq | hr
          · exact h.1 heq
          · exact ih [] (by simp) h.2 hr

theorem subComma_noLB : ∀ (l pending : List Char) (b : Bool), '[' ∉ pending → '[' ∉ l →
    '[' ∉ subComma pending b l := by
  intro l
  induction l with
  | nil => intro pending b hp _; simpa [subComma] using hp
  | cons c rest ih =>
    intro pending b hp h
    simp only [List.mem_cons, not_or] at h
    simp only [subComma]
    split
    · split
      · exact ih [] true (by simp) h.2
      · split
        · intro hm
          rcases List.mem_cons.mp hm with heq | hr
          · exact absurd heq.symm (by decide)
          · rcases List.mem_cons.mp hr with heq2 | hr2
            · exact absurd heq2.symm (by decide)
            · exact ih [] true (by simp) h.2 hr2
        · intro hm
          rcases List.mem_cons.mp hm with heq | hr
          · exact h.1 heq
          · exact ih [] false (by simp) h.2 hr
    · split
      · refine ih (pending ++ [c]) false ?_ h.2
        intro hm
        rcases List.mem_append.mp hm with h1 | h2
        · exact hp h1
        · exact h.1 (List.mem_singleton.mp h2)
      · split
        · intro hm
          rcases List.mem_cons.mp hm with heq | hr
          · exact absurd heq.symm (by decide)
          · rcases List.mem_cons.mp hr with heq2 | hr2
            · exact absurd heq2.symm (by decide)
            · exact ih [] true (by simp) h.2 hr2
        · intro hm
          rcases List.mem_append.mp hm with h1 | h2
          · exact hp h1
          · rcases List.mem_cons.mp h2 with heq | hr
            · exact h.1 heq
            · exact ih [] false (by simp) h.2 hr

theorem firstIdx_LB_none : ∀ l : List Char, '[' ∉ l → firstIdx (· = '[') l = none := by
  intro l
  induction l with
  | nil => intro _; rfl
  | cons c rest ih =>
    intro h
    simp only [List.mem_cons, not_or] at h
    have hc : (decide (c = '[')) = false := decide_eq_false (fun heq => h.1 heq.symm)
    simp only [firstIdx]
    simp [hc, ih h.2]

theorem truncateBrackets_noLB (l : List Char) (h : '[' ∉ l) : truncateBrackets l = l := by
  unfold truncateBrackets
  rw [firstIdx_LB_none l h]

theorem searchBracket_noLB : ∀ l : List Char, '[' ∉ l → searchBracket l = none := by
  intro l
  induction l with
  | nil => intro _; rfl
  | cons c rest ih =>
    intro h
    simp only [List.mem_cons, not_or] at h
    simp only [searchBracket]
    rw [if_neg (fun heq : c = '[' => h.1 heq.symm)]
    exact ih h.2

theorem pyReplace_noLB (l pat repl : List Char) (hrepl : '[' ∉ repl) (h : '[' ∉ l) :
    '[' ∉ pyReplace l pat repl :=
  replaceFuel_noLB pat repl hrepl l.length l h

theorem listPreprocess_noLB (l0 : List Char) (h : '[' ∉ l0) :
    ∃ out, listPreprocess l0 = some out ∧ '[' ∉ out := by
  have h1 : '[' ∉ l0.filter (fun c => c ≠ '\t') := fun hm => h (List.mem_of_mem_filter hm)
  have h2 := protectApos_noLB _ none h1
  have h3 := pyReplace_noLB _ [aposC] ['"'] (by decide) h2
  have h4 := pyReplace_noLB _ placeholder [aposC] (by decide) h3
  have h5 := removeComments_noLB _ false h4
  have h7 := subLB_noLB _ false h5
  have h8 := subRB_noLB _ [] (by simp) h7
  have h9 := subComma_noLB _ [] false (by simp) h8
  refine ⟨truncateBrackets (subComma [] false (subRB [] (subLB false (removeComments false
      (pyReplace (pyReplace (protectApos none (l0.filter (fun c => c ≠ '\t'))) [aposC] ['"'])
        placeholder [aposC]))))), ?_, ?_⟩
  · simp only [listPreprocess]
    rw [mainScan_id_noLB _ [] false h5]
  · rw [truncateBrackets_noLB _ h9]
    exact h9

theorem heapGet_heapSet_self (w : World) (a : Nat) (v : List String) (h : a < w.heap.length) :
    heapGet (heapSet w a v) a = v := by
  simp only [heapGet, heapSet, List.getD_eq_getElem?_getD, List.getElem?_set_self h]
  rfl

theorem heapGet_heapSet_ne (w : World) (a b : Nat) (v : List String) (h : b ≠ a) :
    heapGet (heapSet w a v) b = heapGet w b := by
  simp only [heapGet, heapSet, List.getD_eq_getElem?_getD, List.getElem?_set_ne (Ne.symm h)]

theorem heapGet_heapAppend_lt (w : World) (l : List String) (b : Nat) (h : b < w.heap.length) :
    heapGet { w with heap := w.heap ++ [l] } b = heapGet w b := by
  simp only [heapGet]
  exact List.getD_append _ _ _ _ h

theorem heapGet_heapAppend_self (w : World) (l : List String) :
    heapGet { w with heap := w.heap ++ [l] } w.heap.length = l := by
  simp only [heapGet, List.getD_eq_getElem?_getD, List.getElem?_append_right (Nat.le_refl _)]
  simp

theorem heapSet_length (w : World) (a : Nat) (v : List String) :
    (heapSet w a v).heap.length = w.heap.length := by
  simp [heapSet]

theorem cellGet_heapSet (w : World) (a : Nat) (v : List String) (c : Cat) (k : Kind) :
    cellGet (heapSet w a v) c k = cellGet w c k := by
  cases c <;> cases k <;> rfl

theorem cellGet_heapAppend (w : World) (l : List String) (c : Cat) (k : Kind) :
    cellGet { w with heap := w.heap ++ [l] } c k = cellGet w c k := by
  cases c <;> cases k <;> rfl

theorem cellGet_setCell_self (w : World) (c : Cat) (k : Kind) (v : Option Nat) :
    cellGet (setCell w c k v) c k = v := by
  cases c <;> cases k <;> rfl

theorem cellGet_setCell_ne (w : World) (c : Cat) (k : Kind) (c' : Cat) (k' : Kind)
    (v : Option Nat) (h : ¬(c = c' ∧ k = k')) :
    cellGet (setCell w c k v) c' k' = cellGet w c' k' := by
  cases c <;> cases k <;> cases c' <;> cases k' <;>
    first
    | rfl
    | exact absurd ⟨rfl, rfl⟩ h

theorem popStep_pop (w : World) (c : Cat) (k : Kind) (a : Nat) (m' : List String) (x : String)
    (hheap : heapGet w a = m'.reverse ++ [x]) :
    popStep w c k a =
      (if m'.reverse = [] then setCell (heapSet w a m'.reverse) c k none
       else heapSet w a m'.reverse,
       Except.ok (some x)) := by
  unfold popStep
  rw [hheap]
  simp only [List.getLast?_concat, List.dropLast_concat]

theorem takeMany_stocked (c : Cat) (k : Kind) (pick : Nat) (fetch : String → Option (List String)) :
    ∀ (m : List String) (w : World) (a : Nat), m ≠ [] → cellGet w c k = some a →
      a < w.heap.length → heapGet w a = m.reverse →
      (takeMany c k pick fetch m.length w).1 = m.map (fun s => Except.ok (some s)) ∧
      cellGet (takeMany c k pick fetch m.length w).2 c k = none := by
  intro m
  induction m with
  | nil => intro w a hne _ _ _; exact absurd rfl hne
  | cons x m' ih =>
    intro w a _ hcell ha hheap
    rw [List.reverse_cons] at hheap
    have hne' : heapGet w a ≠ [] := by rw [hheap]; simp
    have hstep : update_counters_and_get_new_list w c k pick fetch = popStep w c k a := by
      unfold update_counters_and_get_new_list
      rw [hcell]
      show (if heapGet w a = [] then refillCell w c k pick fetch else popStep w c k a) =
        popStep w c k a
      rw [if_neg hne']
    have hpop := popStep_pop w c k a m' x hheap
    by_cases hm : m' = []
    · subst hm
      simp only [List.reverse_nil, if_pos rfl] at hpop
      simp only [List.length_cons, List.length_nil, takeMany, hstep, hpop, List.map_cons,
        List.map_nil]
      refine ⟨?_, ?_⟩ <;> simp [cellGet_setCell_self]
    · have hm' : m'.reverse ≠ [] := by simpa [List.reverse_eq_nil_iff] using hm
      rw [if_neg hm'] at hpop
      have hcell2 : cellGet (heapSet w a m'.reverse) c k = some a := by
        rw [cellGet_heapSet]; exact hcell
      have ha2 : a < (heapSet w a m'.reverse).heap.length := by
        rw [heapSet_length]; exact ha
      have hheap2 : heapGet (heapSet w a m'.reverse) a = m'.reverse :=
        heapGet_heapSet_self w a m'.reverse ha
      obtain ⟨ih1, ih2⟩ := ih (heapSet w a m'.reverse) a hm hcell2 ha2 hheap2
      simp only [List.length_cons, takeMany, hstep, hpop, List.map_cons]
      exact ⟨by rw [ih1], ih2⟩

theorem heapGet_setCell (w : World) (c : Cat) (k : Kind) (v : Option Nat) (b : Nat) :
    heapGet (setCell w c k v) b = heapGet w b := by
  cases c <;> cases k <;> rfl

theorem setCell_heap (w : World) (c : Cat) (k : Kind) (v : Option Nat) :
    (setCell w c k v).heap = w.heap := by
  cases c <;> cases k <;> rfl

theorem cellOk_setCell (w : World) (c : Cat) (k : Kind) (v : Option Nat) (o : Option Nat) :
    cellOk (setCell w c k v) o ↔ cellOk w o := by
  cases o with
  | none => exact Iff.rfl
  | some b => simp only [cellOk, heapGet_setCell]

theorem inv_of_cells (w : World) (h : ∀ c k, cellOk w (cellGet w c k)) : Inv w :=
  ⟨h .text .themes, h .text .questions, h .images .themes, h .images .questions⟩

theorem inv_cellGet (w : World) (h : Inv w) (c : Cat) (k : Kind) : cellOk w (cellGet w c k) := by
  cases c <;> cases k
  · exact h.1
  · exact h.2.1
  · exact h.2.2.1
  · exact h.2.2.2

theorem wf_addr_lt (w : World) (c : Cat) (k : Kind) (a : Nat) (hwf : Wf w)
    (hc : cellGet w c k = some a) : a < w.heap.length := by
  have hlen := hwf.1
  cases c <;> cases k
  · have h := hwf.2.1
    have hc' : w.tThemes = some a := hc
    rw [hc'] at h
    have ha : a = defaultAddr Cat.text := h
    simp only [defaultAddr] at ha
    omega
  · have h := hwf.2.2.2.1
    have hc' : w.tQuestions = some a := hc
    rw [hc'] at h
    exact (h : 2 ≤ a ∧ a < w.heap.length).2
  · have h := hwf.2.2.1
    have hc' : w.iThemes = some a := hc
    rw [hc'] at h
    have ha : a = defaultAddr Cat.images := h
    simp only [defaultAddr] at ha
    omega
  · have h := hwf.2.2.2.2.1
    have hc' : w.iQuestions = some a := hc
    rw [hc'] at h
    exact (h : 2 ≤ a ∧ a < w.heap.length).2

theorem wf_cells_distinct (w : World) (c : Cat) (k : Kind) (c' : Cat) (k' : Kind) (a b : Nat)
    (hwf : Wf w) (h1 : cellGet w c k = some a) (h2 : cellGet w c' k' = some b)
    (hne : ¬(c' = c ∧ k' = k)) : b ≠ a := by
  have hlen := hwf.1
  have ht : ∀ x, w.tThemes = some x → x = 0 := by
    intro x hx
    have h := hwf.2.1
    rw [hx] at h
    exact h
  have hi : ∀ x, w.iThemes = some x → x = 1 := by
    intro x hx
    have h := hwf.2.2.1
    rw [hx] at h
    exact h
  have htq : ∀ x, w.tQuestions = some x → 2 ≤ x ∧ x < w.heap.length := by
    intro x hx
    have h := hwf.2.2.2.1
    rw [hx] at h
    exact h
  have hiq : ∀ x, w.iQuestions = some x → 2 ≤ x ∧ x < w.heap.length := by
    intro x hx
    have h := hwf.2.2.2.2.1
    rw [hx] at h
    exact h
  have hdq : ∀ x y, w.tQuestions = some x → w.iQuestions = some y → x ≠ y := by
    intro x y hx hy
    have h := hwf.2.2.2.2.2
    rw [hx, hy] at h
    exact h
  cases c <;> cases k <;> cases c' <;> cases k'
  · exact absurd ⟨rfl, rfl⟩ hne
  · have ha := ht a h1; have hb := htq b h2; omega
  · have ha := ht a h1; have hb := hi b h2; omega
  · have ha := ht a h1; have hb := hiq b h2; omega
  · have ha := htq a h1; have hb := ht b h2; omega
  · exact absurd ⟨rfl, rfl⟩ hne
  · have ha := htq a h1; have hb := hi b h2; omega
  · have hd := hdq a b h1 h2; omega
  · have ha := hi a h1; have hb := ht b h2; omega
  · have ha := hi a h1; have hb := htq b h2; omega
  · exact absurd ⟨rfl, rfl⟩ hne
  · have ha := hi a h1; have hb := hiq b h2; omega
  · have ha := hiq a h1; have hb := ht b h2; omega
  · have hd := hdq b a h2 h1; omega
  · have ha := hiq a h1; have hb := hi b h2; omega
  · exact absurd ⟨rfl, rfl⟩ hne

theorem wf_setCell_none (w : World) (hwf : Wf w) (c : Cat) (k : Kind) :
    Wf (setCell w c k none) := by
  cases c <;> cases k
  · exact ⟨hwf.1, trivial, hwf.2.2.1, hwf.2.2.2.1, hwf.2.2.2.2.1, hwf.2.2.2.2.2⟩
  · exact ⟨hwf.1, hwf.2.1, hwf.2.2.1, trivial, hwf.2.2.2.2.1, trivial⟩
  · exact ⟨hwf.1, hwf.2.1, trivial, hwf.2.2.2.1, hwf.2.2.2.2.1, hwf.2.2.2.2.2⟩
  · refine ⟨hwf.1, hwf.2.1, hwf.2.2.1, hwf.2.2.2.1, trivial, ?_⟩
    show qDistinct w.tQuestions none
    cases w.tQuestions <;> trivial

theorem qAddrOk_heapSet (w : World) (a : Nat) (v : List String) (o : Option Nat) :
    qAddrOk (heapSet w a v) o ↔ qAddrOk w o := by
  cases o with
  | none => exact Iff.rfl
  | some b =>
    show 2 ≤ b ∧ b < (heapSet w a v).heap.length ↔ 2 ≤ b ∧ b < w.heap.length
    rw [heapSet_length]

theorem wf_heapSet (w : World) (hwf : Wf w) (a : Nat) (v : List String) :
    Wf (heapSet w a v) := by
  refine ⟨?_, hwf.2.1, hwf.2.2.1, ?_, ?_, hwf.2.2.2.2.2⟩
  · rw [heapSet_length]; exact hwf.1
  · exact (qAddrOk_heapSet w a v w.tQuestions).mpr hwf.2.2.2.1
  · exact (qAddrOk_heapSet w a v w.iQuestions).mpr hwf.2.2.2.2.1

theorem popStep_eq_none (w : World) (c : Cat) (k : Kind) (a : Nat)
    (hl : (heapGet w a).getLast? = none) :
    popStep w c k a = (setCell w c k none, Except.ok none) := by
  unfold popStep
  simp only [hl]

theorem popStep_eq_some (w : World) (c : Cat) (k : Kind) (a : Nat) (x : String)
    (hl : (heapGet w a).getLast? = some x) :
    popStep w c k a =
      (if (heapGet w a).dropLast = [] then setCell (heapSet w a ((heapGet w a).dropLast)) c k none
       else heapSet w a ((heapGet w a).dropLast),
       Except.ok (some x)) := by
  unfold popStep
  simp only [hl]

theorem popStep_preserves (w : World) (c : Cat) (k : Kind) (a : Nat)
    (hwf : Wf w) (hcell : cellGet w c k = some a)
    (hexc : ∀ c' k', ¬(c' = c ∧ k' = k) → cellOk w (cellGet w c' k')) :
    Inv (popStep w c k a).1 ∧ Wf (popStep w c k a).1 := by
  have halt : a < w.heap.length := wf_addr_lt w c k a hwf hcell
  cases hl : (heapGet w a).getLast? with
  | none =>
    rw [popStep_eq_none w c k a hl]
    constructor
    · apply inv_of_cells
      intro c' k'
      by_cases hck : c' = c ∧ k' = k
      · obtain ⟨rfl, rfl⟩ := hck
        rw [cellGet_setCell_self]
        trivial
      · rw [cellGet_setCell_ne w c k c' k' none (fun hh => hck ⟨hh.1.symm, hh.2.symm⟩)]
        exact (cellOk_setCell w c k none _).mpr (hexc c' k' hck)
    · exact wf_setCell_none w hwf c k
  | some x =>
    rw [popStep_eq_some w c k a x hl]
    by_cases hd : (heapGet w a).dropLast = []
    · rw [if_pos hd]
      constructor
      · apply inv_of_cells
        intro c' k'
        by_cases hck : c' = c ∧ k' = k
        · obtain ⟨rfl, rfl⟩ := hck
          rw [cellGet_setCell_self]
          trivial
        · rw [cellGet_setCell_ne _ _ _ c' k' none (fun hh => hck ⟨hh.1.symm, hh.2.symm⟩),
            cellGet_heapSet]
          cases ho : cellGet w c' k' with
          | none => trivial
          | some b =>
            have hb : heapGet w b ≠ [] := by
              have := hexc c' k' hck
              rw [ho] at this
              exact this
            have hba : b ≠ a := wf_cells_distinct w c k c' k' a b hwf hcell ho hck
            show heapGet (setCell (heapSet w a ((heapGet w a).dropLast)) c k none) b ≠ []
            rw [heapGet_setCell, heapGet_heapSet_ne w a b _ hba]
            exact hb
      · exact wf_setCell_none _ (wf_heapSet w hwf a _) c k
    · rw [if_neg hd]
      constructor
      · apply inv_of_cells
        intro c' k'
        by_cases hck : c' = c ∧ k' = k
        · obtain ⟨rfl, rfl⟩ := hck
          rw [cellGet_heapSet, hcell]
          show heapGet (heapSet w a ((heapGet w a).dropLast)) a ≠ []
          rw [heapGet_heapSet_self w a _ halt]
          exact hd
        · rw [cellGet_heapSet]
          cases ho : cellGet w c' k' with
          | none => trivial
          | some b =>
            have hb : heapGet w b ≠ [] := by
              have := hexc c' k' hck
              rw [ho] at this
              exact this
            have hba : b ≠ a := wf_cells_distinct w c k c' k' a b hwf hcell ho hck
            show heapGet (heapSet w a ((heapGet w a).dropLast)) b ≠ []
            rw [heapGet_heapSet_ne w a b _ hba]
            exact hb
      · exact wf_heapSet w hwf a _

theorem wf_setCell_themeDefault (w : World) (hwf : Wf w) (c : Cat) :
    Wf (setCell w c .themes (some (defaultAddr c))) := by
  cases c
  · exact ⟨hwf.1, rfl, hwf.2.2.1, hwf.2.2.2.1, hwf.2.2.2.2.1, hwf.2.2.2.2.2⟩
  · exact ⟨hwf.1, hwf.2.1, rfl, hwf.2.2.2.1, hwf.2.2.2.2.1, hwf.2.2.2.2.2⟩

theorem get_random_theme_eq_stocked (w : World) (c : Cat) (pick : Nat) (a : Nat)
    (hc : cellGet w c .themes = some a) (hne : heapGet w a ≠ []) :
    get_random_theme w c pick = (w, random_choice pick (heapGet w a)) := by
  unfold get_random_theme
  simp only [hc]
  rw [if_neg hne]

theorem get_random_theme_eq_refill_some (w : World) (c : Cat) (pick : Nat) (a : Nat)
    (hc : cellGet w c .themes = some a) (he : heapGet w a = []) :
    get_random_theme w c pick =
      (setCell w c .themes (some (defaultAddr c)),
       random_choice pick
         (heapGet (setCell w c .themes (some (defaultAddr c))) (defaultAddr c))) := by
  unfold get_random_theme
  simp only [hc]
  rw [if_pos he]

theorem get_random_theme_eq_refill_none (w : World) (c : Cat) (pick : Nat)
    (hc : cellGet w c .themes = none) :
    get_random_theme w c pick =
      (setCell w c .themes (some (defaultAddr c)),
       random_choice pick
         (heapGet (setCell w c .themes (some (defaultAddr c))) (defaultAddr c))) := by
  unfold get_random_theme
  simp only [hc]

theorem random_choice_ok_nonempty (pick : Nat) (l : List String) (th : String)
    (h : random_choice pick l = Except.ok th) : l ≠ [] := by
  intro hnil
  rw [hnil] at h
  exact absurd h (by simp [random_choice])

theorem refilled_theme_ok (w : World) (c : Cat) (hwf : Wf w) (hinv : Inv w)
    (hne : heapGet w (defaultAddr c) ≠ []) :
    Inv (setCell w c .themes (some (defaultAddr c))) ∧
    Wf (setCell w c .themes (some (defaultAddr c))) := by
  constructor
  · apply inv_of_cells
    intro c' k'
    by_cases hck : c' = c ∧ k' = Kind.themes
    · obtain ⟨rfl, rfl⟩ := hck
      rw [cellGet_setCell_self]
      show heapGet (setCell w c' .themes (some (defaultAddr c'))) (defaultAddr c') ≠ []
      rw [heapGet_setCell]
      exact hne
    · rw [cellGet_setCell_ne w c .themes c' k' _ (fun hh => hck ⟨hh.1.symm, hh.2.symm⟩)]
      exact (cellOk_setCell w c .themes _ _).mpr (inv_cellGet w hinv c' k')
  · exact wf_setCell_themeDefault w hwf c

theorem get_random_theme_ok (w : World) (c : Cat) (pick : Nat) (w1 : World) (th : String)
    (hwf : Wf w) (hinv : Inv w) (h : get_random_theme w c pick = (w1, Except.ok th)) :
    Inv w1 ∧ Wf w1 ∧ w1.heap = w.heap ∧
    (∀ c' k', ¬(c' = c ∧ k' = Kind.themes) → cellGet w1 c' k' = cellGet w c' k') := by
  cases hc : cellGet w c .themes with
  | some a =>
    by_cases he : heapGet w a = []
    · rw [get_random_theme_eq_refill_some w c pick a hc he] at h
      injection h with hw1 hres
      subst hw1
      have hne : heapGet w (defaultAddr c) ≠ [] := by
        have := random_choice_ok_nonempty pick _ th hres
        rw [heapGet_setCell] at this
        exact this
      obtain ⟨hi1, hw1⟩ := refilled_theme_ok w c hwf hinv hne
      exact ⟨hi1, hw1, setCell_heap w c .themes _, fun c' k' hck =>
        cellGet_setCell_ne w c .themes c' k' _ (fun hh => hck ⟨hh.1.symm, hh.2.symm⟩)⟩
    · rw [get_random_theme_eq_stocked w c pick a hc he] at h
      injection h with hw1 _
      subst hw1
      exact ⟨hinv, hwf, rfl, fun _ _ _ => rfl⟩
  | none =>
    rw [get_random_theme_eq_refill_none w c pick hc] at h
    injection h with hw1 hres
    subst hw1
    have hne : heapGet w (defaultAddr c) ≠ [] := by
      have := random_choice_ok_nonempty pick _ th hres
      rw [heapGet_setCell] at this
      exact this
    obtain ⟨hi1, hw1⟩ := refilled_theme_ok w c hwf hinv hne
    exact ⟨hi1, hw1, setCell_heap w c .themes _, fun c' k' hck =>
      cellGet_setCell_ne w c .themes c' k' _ (fun hh => hck ⟨hh.1.symm, hh.2.symm⟩)⟩

theorem update_eq_pop (w : World) (c : Cat) (k : Kind) (a : Nat) (pick : Nat)
    (fetch : String → Option (List String)) (hc : cellGet w c k = some a)
    (hne : heapGet w a ≠ []) :
    update_counters_and_get_new_list w c k pick fetch = popStep w c k a := by
  unfold update_counters_and_get_new_list
  simp only [hc]
  rw [if_neg hne]

theorem update_eq_refill_empty (w : World) (c : Cat) (k : Kind) (a : Nat) (pick : Nat)
    (fetch : String → Option (List String)) (hc : cellGet w c k = some a)
    (he : heapGet w a = []) :
    update_counters_and_get_new_list w c k pick fetch = refillCell w c k pick fetch := by
  unfold update_counters_and_get_new_list
  simp only [hc]
  rw [if_pos he]

theorem update_eq_refill_none (w : World) (c : Cat) (k : Kind) (pick : Nat)
    (fetch : String → Option (List String)) (hc : cellGet w c k = none) :
    update_counters_and_get_new_list w c k pick fetch = refillCell w c k pick fetch := by
  unfold update_counters_and_get_new_list
  simp only [hc]

theorem refill_themes_eq (w : World) (c : Cat) (pick : Nat)
    (fetch : String → Option (List String)) :
    refillCell w c .themes pick fetch =
      popStep (setCell w c .themes (some (defaultAddr c))) c .themes (defaultAddr c) := rfl

theorem refill_questions_eq_err (w : World) (c : Cat) (pick : Nat)
    (fetch : String → Option (List String)) (w1 : World) (e : PyErr)
    (hrt : get_random_theme w c pick = (w1, Except.error e)) :
    refillCell w c .questions pick fetch = (w1, Except.error e) := by
  unfold refillCell
  simp only [hrt]

theorem refill_questions_eq_fetchfail (w : World) (c : Cat) (pick : Nat)
    (fetch : String → Option (List String)) (w1 : World) (th : String)
    (hrt : get_random_theme w c pick = (w1, Except.ok th)) (hf : fetch th = none) :
    refillCell w c .questions pick fetch =
      (setCell w1 c .questions none, Except.error PyErr.typeError) := by
  unfold refillCell
  simp only [hrt, hf]

theorem refill_questions_eq_alloc (w : World) (c : Cat) (pick : Nat)
    (fetch : String → Option (List String)) (w1 : World) (th : String) (l : List String)
    (hrt : get_random_theme w c pick = (w1, Except.ok th)) (hf : fetch th = some l) :
    refillCell w c .questions pick fetch =
      popStep (setCell { w1 with heap := w1.heap ++ [l] } c .questions (some w1.heap.length))
        c .questions w1.heap.length := by
  unfold refillCell
  simp only [hrt, hf]

theorem qAddrOk_append (w : World) (l : List String) (o : Option Nat) (h : qAddrOk w o) :
    qAddrOk { w with heap := w.heap ++ [l] } o := by
  cases o with
  | none => trivial
  | some b =>
    obtain ⟨h1, h2⟩ := (h : 2 ≤ b ∧ b < w.heap.length)
    show 2 ≤ b ∧ b < (w.heap ++ [l]).length
    simp only [List.length_append, List.length_cons, List.length_nil]
    omega

theorem wf_alloc_q (w1 : World) (hwf1 : Wf w1) (l : List String) (c : Cat) :
    Wf (setCell { w1 with heap := w1.heap ++ [l] } c .questions (some w1.heap.length)) := by
  have hlen : ({ w1 with heap := w1.heap ++ [l] } : World).heap.length = w1.heap.length + 1 := by
    simp
  cases c
  · refine ⟨?_, hwf1.2.1, hwf1.2.2.1, ?_, ?_, ?_⟩
    · have h1 := hwf1.1
      show 2 ≤ (w1.heap ++ [l]).length
      simp only [List.length_append, List.length_cons, List.length_nil]
      omega
    · show qAddrOk _ (some w1.heap.length)
      refine ⟨hwf1.1, ?_⟩
      show w1.heap.length < (w1.heap ++ [l]).length
      simp
    · exact qAddrOk_append w1 l w1.iQuestions hwf1.2.2.2.2.1
    · show qDistinct (some w1.heap.length) w1.iQuestions
      cases hq : w1.iQuestions with
      | none => trivial
      | some b =>
        have hb := hwf1.2.2.2.2.1
        rw [hq] at hb
        obtain ⟨_, hb2⟩ := (hb : 2 ≤ b ∧ b < w1.heap.length)
        show w1.heap.length ≠ b
        omega
  · refine ⟨?_, hwf1.2.1, hwf1.2.2.1, ?_, ?_, ?_⟩
    · have h1 := hwf1.1
      show 2 ≤ (w1.heap ++ [l]).length
      simp only [List.length_append, List.length_cons, List.length_nil]
      omega
    · exact qAddrOk_append w1 l w1.tQuestions hwf1.2.2.2.1
    · show qAddrOk _ (some w1.heap.length)
      refine ⟨hwf1.1, ?_⟩
      show w1.heap.length < (w1.heap ++ [l]).length
      simp
    · show qDistinct w1.tQuestions (some w1.heap.length)
      cases hq : w1.tQuestions with
      | none => trivial
      | some b =>
        have hb := hwf1.2.2.2.1
        rw [hq] at hb
        obtain ⟨_, hb2⟩ := (hb : 2 ≤ b ∧ b < w1.heap.length)
        show b ≠ w1.heap.length
        omega

theorem refill_preserves (w : World) (c : Cat) (k : Kind) (pick : Nat)
    (fetch : String → Option (List String)) (r : Option String)
    (hwf : Wf w) (hinv : Inv w) (hok : (refillCell w c k pick fetch).2 = Except.ok r) :
    Inv (refillCell w c k pick fetch).1 ∧ Wf (refillCell w c k pick fetch).1 := by
  cases k with
  | themes =>
    rw [refill_themes_eq]
    apply popStep_preserves
    · exact wf_setCell_themeDefault w hwf c
    · exact cellGet_setCell_self w c .themes _
    · intro c' k' hck
      rw [cellGet_setCell_ne w c .themes c' k' _ (fun hh => hck ⟨hh.1.symm, hh.2.symm⟩)]
      exact (cellOk_setCell w c .themes _ _).mpr (inv_cellGet w hinv c' k')
  | questions =>
    rcases hrt : get_random_theme w c pick with ⟨w1, res⟩
    cases res with
    | error e =>
      rw [refill_questions_eq_err w c pick fetch w1 e hrt] at hok
      exact absurd hok (by simp)
    | ok th =>
      cases hf : fetch th with
      | none =>
        rw [refill_questions_eq_fetchfail w c pick fetch w1 th hrt hf] at hok
        exact absurd hok (by simp)
      | some l =>
        rw [refill_questions_eq_alloc w c pick fetch w1 th l hrt hf]
        obtain ⟨hi1, hw1, _, _⟩ := get_random_theme_ok w c pick w1 th hwf hinv hrt
        apply popStep_preserves
        · exact wf_alloc_q w1 hw1 l c
        · exact cellGet_setCell_self _ c .questions _
        · intro c' k' hck
          rw [cellGet_setCell_ne _ c .questions c' k' _ (fun hh => hck ⟨hh.1.symm, hh.2.symm⟩),
            cellGet_heapAppend]
          cases ho : cellGet w1 c' k' with
          | none => trivial
          | some b =>
            have hblt : b < w1.heap.length := wf_addr_lt w1 c' k' b hw1 ho
            have hb : heapGet w1 b ≠ [] := by
              have := inv_cellGet w1 hi1 c' k'
              rw [ho] at this
              exact this
            show heapGet (setCell { w1 with heap := w1.heap ++ [l] } c .questions
              (some w1.heap.length)) b ≠ []
            rw [heapGet_setCell, heapGet_heapAppend_lt w1 l b hblt]
            exact hb

/-! ## Claim theorems -/

/-- C1: the claim says that when `get_list` returns an absent result the
regeneration loop retries with a fresh random theme forever, so a
`get_question` consumer is never handed an absent item.  The code does
not: the `while True` loop in `get_items` only repeats when the *theme*
is `None` (which `random.choice` never yields), so an absent `get_list`
result is returned, stored as `state[category]["questions"] = None`, and
the very next line `len(items)` raises `TypeError`.  Here, with a fetch
oracle that always fails, the consumer call raises instead of looping. -/
theorem c1_fetch_failure_raises_typeerror :
    (get_question (initWorld ["science"] ["art"]) Cat.text 0 (fun _ => none)).2 =
      Except.error PyErr.typeError := by
  rfl

/-- C2: `preprocess_string` is not total: on `"[a "` the whitespace
collapsing scan evaluates `no_comments_text[i + 1]` with `i` the last
index, raising `IndexError` (modelled as `none`).  Its only caller,
`extract_python_list`, absorbs the exception into a `None` return. -/
theorem c2_preprocess_string_raises :
    preprocess_string "[a " = none ∧ extract_python_list "[a " = none := by
  constructor <;> rfl

/-- C3: the default theme pools are not read-only: `get_items` returns
the pool constant itself and the queue pops from it in place.  One
`take_one (text, themes)` call on a fresh state removes the last element
of `template.INSTRUCT_DEFAULT_THEMES` (heap address 0) for good. -/
theorem c3_default_pool_mutated :
    heapGet (initWorld ["t1", "t2"] ["i1"]) (defaultAddr Cat.text) = ["t1", "t2"] ∧
    (update_counters_and_get_new_list (initWorld ["t1", "t2"] ["i1"]) Cat.text Kind.themes 0
        (fun _ => none)).2 = Except.ok (some "t2") ∧
    heapGet (update_counters_and_get_new_list (initWorld ["t1", "t2"] ["i1"]) Cat.text Kind.themes 0
        (fun _ => none)).1 (defaultAddr Cat.text) = ["t1"] := by
  refine ⟨rfl, rfl, rfl⟩

/-- C4: exactly-once delivery.  Every `take_one` body runs entirely
inside the single process-wide `list_update_lock`, so any schedule of N
concurrent callers executes as N atomic calls in some order (`takeMany`).
Against a cell pre-stocked with exactly N items, the N calls return
exactly the stocked items — popped from the end, so in reverse order —
each exactly once (distinct when the stocked items are distinct), and the
cell ends in the absent (`EMPTY`) state. -/
theorem c4_exactly_once (c : Cat) (k : Kind) (pick : Nat) (fetch : String → Option (List String))
    (l : List String) (w : World) (a : Nat) (hne : l ≠ []) (hcell : cellGet w c k = some a)
    (ha : a < w.heap.length) (hheap : heapGet w a = l) :
    (takeMany c k pick fetch l.length w).1 = l.reverse.map (fun s => Except.ok (some s)) ∧
    cellGet (takeMany c k pick fetch l.length w).2 c k = none ∧
    (l.Nodup → ((takeMany c k pick fetch l.length w).1).Nodup) := by
  have hrev : heapGet w a = l.reverse.reverse := by rw [List.reverse_reverse]; exact hheap
  have hne' : l.reverse ≠ [] := by simpa [List.reverse_eq_nil_iff] using hne
  have hlen : l.length = l.reverse.length := (List.length_reverse l).symm
  obtain ⟨h1, h2⟩ := takeMany_stocked c k pick fetch l.reverse w a hne' hcell ha hrev
  rw [hlen]
  refine ⟨h1, h2, ?_⟩
  intro hnd
  rw [h1]
  exact (List.nodup_reverse.mpr hnd).map (fun s1 s2 hss => by simpa using hss)

/-- C4 witness: a cell stocked with exactly the two items `q1, q2`; two
calls deliver `q2` then `q1` and leave the cell absent. -/
theorem c4_witness :
    (["q1", "q2"] : List String) ≠ [] ∧
    cellGet ⟨[["t"], ["i"], ["q1", "q2"]], none, some 2, none, none⟩ Cat.text Kind.questions =
      some 2 ∧
    2 < (⟨[["t"], ["i"], ["q1", "q2"]], none, some 2, none, none⟩ : World).heap.length ∧
    heapGet ⟨[["t"], ["i"], ["q1", "q2"]], none, some 2, none, none⟩ 2 = ["q1", "q2"] ∧
    (takeMany Cat.text Kind.questions 0 (fun _ => none) (["q1", "q2"] : List String).length
        ⟨[["t"], ["i"], ["q1", "q2"]], none, some 2, none, none⟩).1 =
      (["q1", "q2"] : List String).reverse.map (fun s => Except.ok (some s)) ∧
    cellGet (takeMany Cat.text Kind.questions 0 (fun _ => none)
        (["q1", "q2"] : List String).length
        ⟨[["t"], ["i"], ["q1", "q2"]], none, some 2, none, none⟩).2 Cat.text Kind.questions =
      none := by
  refine ⟨by decide, rfl, by decide, rfl, ?_, ?_⟩
  · exact (c4_exactly_once Cat.text Kind.questions 0 (fun _ => none) ["q1", "q2"]
      ⟨[["t"], ["i"], ["q1", "q2"]], none, some 2, none, none⟩ 2 (by decide) rfl (by decide)
      rfl).1
  · exact (c4_exactly_once Cat.text Kind.questions 0 (fun _ => none) ["q1", "q2"]
      ⟨[["t"], ["i"], ["q1", "q2"]], none, some 2, none, none⟩ 2 (by decide) rfl (by decide)
      rfl).2.1

/-- C5: the QueueState invariant.  Starting from a well-formed world in
which no cell holds an empty sequence, any `take_one` call that returns
normally preserves that invariant: the pop branch (lines 186-189) clears
the cell to `None` whenever it removes the last cached item, the refill
branches either store a non-empty list or clear the cell, and no other
cell can alias the popped list (`Wf` rules out aliasing between distinct
cells, which is how reachable worlds behave: questions lists are fresh
`get_list` allocations and theme cells only alias their own category's
default pool).  A call that *raises* is outside the claim's wording; the
only raising paths are the `TypeError`/`IndexError` defects already
exhibited for C1/C3. -/
theorem c5_no_empty_cell_after_call (w : World) (c : Cat) (k : Kind) (pick : Nat)
    (fetch : String → Option (List String)) (r : Option String)
    (hwf : Wf w) (hinv : Inv w)
    (hok : (update_counters_and_get_new_list w c k pick fetch).2 = Except.ok r) :
    Inv (update_counters_and_get_new_list w c k pick fetch).1 ∧
    Wf (update_counters_and_get_new_list w c k pick fetch).1 := by
  cases hc : cellGet w c k with
  | some a =>
    by_cases he : heapGet w a = []
    · rw [update_eq_refill_empty w c k a pick fetch hc he] at hok ⊢
      exact refill_preserves w c k pick fetch r hwf hinv hok
    · rw [update_eq_pop w c k a pick fetch hc he]
      exact popStep_preserves w c k a hwf hc (fun c' k' _ => inv_cellGet w hinv c' k')
  | none =>
    rw [update_eq_refill_none w c k pick fetch hc] at hok ⊢
    exact refill_preserves w c k pick fetch r hwf hinv hok

/-- C5 witness: a fresh world serving one theme item keeps every cell
either absent or non-empty. -/
theorem c5_witness :
    Wf (initWorld ["t"] ["i"]) ∧ Inv (initWorld ["t"] ["i"]) ∧
    (update_counters_and_get_new_list (initWorld ["t"] ["i"]) Cat.text Kind.themes 0
        (fun _ => none)).2 = Except.ok (some "t") ∧
    Inv (update_counters_and_get_new_list (initWorld ["t"] ["i"]) Cat.text Kind.themes 0
        (fun _ => none)).1 := by
  refine ⟨by decide, by decide, rfl, ?_⟩
  exact (c5_no_empty_cell_after_call (initWorld ["t"] ["i"]) Cat.text Kind.themes 0
    (fun _ => none) (some "t") (by decide) (by decide) rfl).1

/-- C6: `get_list` returns the absent value exactly when every
instruction (initial reply plus its escalated retries) contributed zero
elements, and otherwise the concatenation of all contributions in
instruction order. -/
theorem c6_get_list_absent_iff_empty (rs : List (Option String))
    (o : Nat → Nat → Option String) :
    get_list rs o = (if contributions rs o = [] then none else some (contributions rs o)) ∧
    (get_list rs o = none ↔ ∀ p ∈ rs.enum, contribution o p = []) := by
  have hacc : getListAccum o 0 [] rs = contributions rs o := by
    rw [getListAccum_eq]
    rfl
  constructor
  · simp only [get_list, hacc]
  · simp only [get_list, hacc]
    constructor
    · intro hnone p hp
      by_cases h : contributions rs o = []
      · have h' : (rs.enum).flatMap (contribution o) = [] := h
        exact List.flatMap_eq_nil_iff.mp h' p hp
      · rw [if_neg h] at hnone
        exact absurd hnone (by simp)
    · intro hall
      have h : contributions rs o = [] := List.flatMap_eq_nil_iff.mpr hall
      rw [if_pos h]

/-- C7: fetcher ordering.  `asyncio.gather` reassembles replies by task
index, so the gathered response list — and with it the whole `get_list`
result — depends only on which reply belongs to which instruction, not on
the order the provider completed them: any permutation of the completion
events yields the same result, whose elements `get_list` then concatenates
in instruction order (see `c6_get_list_absent_iff_empty`). -/
theorem c7_completion_order_irrelevant (c1 c2 : List (Nat × Option String)) (n : Nat)
    (o : Nat → Nat → Option String) (hperm : c1.Perm c2)
    (hkeys : (c1.map Prod.fst).Nodup) :
    gatherByIndex c1 n = gatherByIndex c2 n ∧
    get_list (gatherByIndex c1 n) o = get_list (gatherByIndex c2 n) o := by
  have hg : gatherByIndex c1 n = gatherByIndex c2 n := by
    unfold gatherByIndex
    apply List.map_congr_left
    intro i _
    rw [find?_key_perm hperm hkeys i]
  exact ⟨hg, by rw [hg]⟩

/-- C7 witness: instructions A, B, C whose provider replies complete in
the order C, A, B produce the same gathered batch as completion in order
A, B, C, and the extracted elements stay in instruction order. -/
theorem c7_witness :
    ([((2 : Nat), some "[\"c1\"]"), (0, some "[\"a1\"]"), (1, some "[\"b1\"]")].Perm
        [(0, some "[\"a1\"]"), (1, some "[\"b1\"]"), (2, some "[\"c1\"]")]) ∧
    (([((2 : Nat), some "[\"c1\"]"), (0, some "[\"a1\"]"), (1, some "[\"b1\"]")].map
        Prod.fst).Nodup) ∧
    get_list (gatherByIndex [((2 : Nat), some "[\"c1\"]"), (0, some "[\"a1\"]"),
        (1, some "[\"b1\"]")] 3) (fun _ _ => none) =
      get_list (gatherByIndex [(0, some "[\"a1\"]"), (1, some "[\"b1\"]"),
        (2, some "[\"c1\"]")] 3) (fun _ _ => none) ∧
    get_list (gatherByIndex [((2 : Nat), some "[\"c1\"]"), (0, some "[\"a1\"]"),
        (1, some "[\"b1\"]")] 3) (fun _ _ => none) = some ["a1", "b1", "c1"] := by
  refine ⟨by decide, by decide, ?_, by decide⟩
  exact (c7_completion_order_irrelevant _ _ 3 (fun _ _ => none) (by decide) (by decide)).2

/-- C8 counterexample: "returns `None` for every input containing no
bracketed span" is too strong — an input that starts with the
numbered-list pattern contains no brackets at all yet yields a list via
the fast path, not the absent value. -/
theorem c8_counterexample :
    extract_python_list "1. hi" = some ["hi"] ∧
    '[' ∉ "1. hi".data ∧ ']' ∉ "1. hi".data := by
  exact ⟨rfl, by decide, by decide⟩

/-- C8 (amended): `extract_python_list` never raises to its caller (the
model is total by construction, mirroring the `try`/`except` that turns
every internal exception into `None`; `c2_preprocess_string_raises` shows
it absorbing a real one), and for every input that contains no brackets
at all *and does not start with the numbered-list pattern* it returns the
absent value — not an exception and not an empty sequence.  The `]`-free
hypothesis is part of "no brackets at all"; the proof only needs the
absence of `[`. -/
theorem c8_no_brackets_absent (s : String) (hn : matchesNumbered s.data = false)
    (h1 : '[' ∉ s.data) (_h2 : ']' ∉ s.data) :
    extract_python_list s = none := by
  unfold extract_python_list
  rw [hn]
  obtain ⟨out, hout, hnil⟩ := listPreprocess_noLB s.data h1
  simp only [Bool.false_eq_true, if_false, preprocess_string, hout, Option.map_some']
  rw [searchBracket_noLB out hnil]

/-- C8 witness: the spec's own example, a refusal with no brackets. -/
theorem c8_witness :
    matchesNumbered "I cannot help with that.".data = false ∧
    '[' ∉ "I cannot help with that.".data ∧
    ']' ∉ "I cannot help with that.".data ∧
    extract_python_list "I cannot help with that." = none := by
  refine ⟨by decide, by decide, by decide, ?_⟩
  exact c8_no_brackets_absent "I cannot help with that." (by decide) (by decide) (by decide)

/-- C9 counterexample: the numbered-list fast path does not return only
non-empty trimmed segments.  The non-emptiness filter runs *before*
trimming, so a whitespace-only segment (here the `"\n"` between `"1. "`
and `"2. "`) survives the filter and is trimmed to the empty string,
which appears in the output. -/
theorem c9_counterexample :
    extract_python_list "1. \n2. Beta" = some ["", "Beta"] ∧
    "" ∈ (["", "Beta"] : List String) := by
  exact ⟨rfl, by decide⟩

/-- C9 (amended): for every input starting with the numbered-list pattern
(digits, period, whitespace), `extract_python_list` returns the split
segments directly — the segments that were non-empty *before* trimming,
each trimmed (so a whitespace-only segment yields an empty string) — and
never consults the normalizer. -/
theorem c9_numbered_fast_path (s : String) (h : matchesNumbered s.data = true) :
    extract_python_list s = some (convert_to_list s) := by
  unfold extract_python_list
  rw [h]
  simp

/-- C9 witness: the spec's own example, through the fast path. -/
theorem c9_witness :
    matchesNumbered "1. Alpha\n2. Beta\n3. Gamma".data = true ∧
    extract_python_list "1. Alpha\n2. Beta\n3. Gamma" = some ["Alpha", "Beta", "Gamma"] := by
  refine ⟨by decide, ?_⟩
  rw [c9_numbered_fast_path "1. Alpha\n2. Beta\n3. Gamma" (by decide)]
  rfl

/-- C10: a reply whose extraction succeeds with an *empty* list is
indistinguishable, inside `get_list`, from a reply whose extraction
failed: the Python truthiness test `if extracted_list:` is false for both
`[]` and `None`, so both take the escalated retry path and the original
reply contributes nothing. -/
theorem c10_empty_list_eq_failure (oracle : Nat → Option String) (r1 r2 : Option String)
    (h1 : extract_python_list (flattenAnswer r1) = some [])
    (h2 : extract_python_list (flattenAnswer r2) = none) :
    processOne oracle r1 = processOne oracle r2 ∧
    processOne oracle r1 = retryLoop oracle 0 5 := by
  unfold processOne
  rw [h1, h2]
  exact ⟨rfl, rfl⟩

/-- C10 witness: the reply `"[]"` extracts to the empty list, the reply
`"I cannot help with that."` fails extraction, and both are processed
identically. -/
theorem c10_witness :
    extract_python_list (flattenAnswer (some "[]")) = some [] ∧
    extract_python_list (flattenAnswer (some "I cannot help with that.")) = none ∧
    processOne (fun _ => none) (some "[]") =
      processOne (fun _ => none) (some "I cannot help with that.") := by
  refine ⟨rfl, rfl, ?_⟩
  exact (c10_empty_list_eq_failure (fun _ => none) (some "[]")
    (some "I cannot help with that.") rfl rfl).1

end Cortex
